import Mathlib

/-!
Verification of the mqnic driver model (corundum `fpga/common/tb/mqnic.py`).

This file gives a shallow embedding of the data structures and operations of
the driver model — descriptor rings (TXQ/RXQ), event queues (EQ), completion
queue processing, the register-block capability chain walker, the round-robin
scheduler flow-control scaling, the reference-counted scheduler enable, and
the network-device lifecycle guards — and proves the specified properties
about them.  Machine integers are modelled as `Nat`/`Int` with explicit
masking where the source masks; the abstract register bus (an external
collaborator of the driver core) is modelled as value storage.
-/

/-! ## Register constants (transcribed from the source constant block) -/

def MQNIC_QUEUE_PTR_REG : Nat := 0x10
def MQNIC_QUEUE_PROD_PTR_REG : Nat := 0x10
def MQNIC_QUEUE_CONS_PTR_REG : Nat := 0x12
def MQNIC_QUEUE_PTR_MASK : Nat := 0xFFFF
def MQNIC_QUEUE_CMD_SET_PROD_PTR : Nat := 0x80800000
def MQNIC_QUEUE_CMD_SET_CONS_PTR : Nat := 0x80900000

def MQNIC_EQ_PTR_MASK : Nat := 0xFFFF
def MQNIC_EQ_CMD_SET_CONS_PTR : Nat := 0x80900000
def MQNIC_EQ_CMD_SET_ENABLE : Nat := 0x40000100

def MQNIC_EVENT_TYPE_CPL : Nat := 0x0000

def MQNIC_RB_REG_TYPE : Nat := 0x00
def MQNIC_RB_REG_VER : Nat := 0x04
def MQNIC_RB_REG_NEXT_PTR : Nat := 0x08

def MQNIC_RB_SCHED_RR_REG_CH_STRIDE : Nat := 0x10
def MQNIC_RB_SCHED_RR_REG_CH0_FC2_DB : Nat := 0x28

/-! ## Descriptor rings (`Txq` / `Rxq`)

`Txq.open` computes `size = 2**log_queue_size`, `size_mask = size - 1` and
`full_size = size >> 1`; the producer/consumer pointers are unbounded Python
integers, monotonically advanced by software.  `Rxq` duplicates the shape and
additionally owns the per-slot buffer table `rx_info` and (in this model) a
fresh-packet counter standing for `driver.alloc_pkt()`.
-/

structure Txq where
  log_queue_size : Nat
  prod_ptr : Nat
  cons_ptr : Nat

def Txq.size (q : Txq) : Nat := 2 ^ q.log_queue_size

def Txq.size_mask (q : Txq) : Nat := q.size - 1

def Txq.full_size (q : Txq) : Nat := q.size >>> 1

def Txq.empty (q : Txq) : Bool := q.prod_ptr == q.cons_ptr

def Txq.full (q : Txq) : Bool := decide (q.prod_ptr - q.cons_ptr ≥ q.full_size)

structure Rxq where
  log_queue_size : Nat
  log_desc_block_size : Nat
  prod_ptr : Nat
  cons_ptr : Nat
  rx_info : List (Option Nat)
  next_pkt : Nat

def Rxq.size (q : Rxq) : Nat := 2 ^ q.log_queue_size

def Rxq.size_mask (q : Rxq) : Nat := q.size - 1

def Rxq.desc_block_size (q : Rxq) : Nat := 2 ^ q.log_desc_block_size

def Rxq.full_size (q : Rxq) : Nat := q.size >>> 1

def Rxq.empty (q : Rxq) : Bool := q.prod_ptr == q.cons_ptr

def Rxq.full (q : Rxq) : Bool := decide (q.prod_ptr - q.cons_ptr ≥ q.full_size)

lemma txq_full_size_eq (q : Txq) : q.full_size = 2 ^ q.log_queue_size / 2 := by
  simp [Txq.full_size, Txq.size, Nat.shiftRight_eq_div_pow]

lemma rxq_full_size_eq (q : Rxq) : q.full_size = 2 ^ q.log_queue_size / 2 := by
  simp [Rxq.full_size, Rxq.size, Nat.shiftRight_eq_div_pow]

lemma int_half_pow (k : Nat) : ((2 ^ k / 2 : Nat) : Int) = (2 ^ k : Int) / 2 := by
  rw [Int.ofNat_div]
  norm_cast

/-- Claim C1: for every descriptor ring (TXQ or RXQ) with capacity `C = 2^k`
and valid counters `cons_ptr ≤ prod_ptr`, `empty()` is true iff
`prod_ptr = cons_ptr`, `full()` is true iff `prod_ptr - cons_ptr ≥ C/2`
(the half-ring backpressure threshold), and in particular `full()` is true at
difference exactly `C/2` and false at difference `C/2 - 1`. -/
theorem ring_half_full_backpressure (q : Txq) (r : Rxq)
    (hq : q.cons_ptr ≤ q.prod_ptr) (hr : r.cons_ptr ≤ r.prod_ptr) :
    (q.empty = true ↔ q.prod_ptr = q.cons_ptr) ∧
    (q.full = true ↔
      (q.prod_ptr : Int) - (q.cons_ptr : Int) ≥ (2 ^ q.log_queue_size : Int) / 2) ∧
    (r.empty = true ↔ r.prod_ptr = r.cons_ptr) ∧
    (r.full = true ↔
      (r.prod_ptr : Int) - (r.cons_ptr : Int) ≥ (2 ^ r.log_queue_size : Int) / 2) ∧
    (1 ≤ q.log_queue_size →
      (q.prod_ptr = q.cons_ptr + 2 ^ q.log_queue_size / 2 → q.full = true) ∧
      (q.prod_ptr + 1 = q.cons_ptr + 2 ^ q.log_queue_size / 2 → q.full = false)) ∧
    (1 ≤ r.log_queue_size →
      (r.prod_ptr = r.cons_ptr + 2 ^ r.log_queue_size / 2 → r.full = true) ∧
      (r.prod_ptr + 1 = r.cons_ptr + 2 ^ r.log_queue_size / 2 → r.full = false)) := by
  have hq2 : (1 : Nat) ≤ 2 ^ q.log_queue_size := Nat.one_le_two_pow
  have hr2 : (1 : Nat) ≤ 2 ^ r.log_queue_size := Nat.one_le_two_pow
  refine ⟨?_, ?_, ?_, ?_, ?_, ?_⟩
  · simp [Txq.empty]
  · rw [Txq.full, decide_eq_true_iff, txq_full_size_eq, ← int_half_pow]
    omega
  · simp [Rxq.empty]
  · rw [Rxq.full, decide_eq_true_iff, rxq_full_size_eq, ← int_half_pow]
    omega
  · intro hk
    have h1 : (2 : Nat) ^ 1 ≤ 2 ^ q.log_queue_size := Nat.pow_le_pow_right (by norm_num) hk
    have h2 : (2 : Nat) ^ 1 = 2 := by norm_num
    constructor
    · intro h
      rw [Txq.full, decide_eq_true_iff, txq_full_size_eq]
      omega
    · intro h
      rw [Txq.full, decide_eq_false_iff_not, txq_full_size_eq]
      omega
  · intro hk
    have h1 : (2 : Nat) ^ 1 ≤ 2 ^ r.log_queue_size := Nat.pow_le_pow_right (by norm_num) hk
    have h2 : (2 : Nat) ^ 1 = 2 := by norm_num
    constructor
    · intro h
      rw [Rxq.full, decide_eq_true_iff, rxq_full_size_eq]
      omega
    · intro h
      rw [Rxq.full, decide_eq_false_iff_not, rxq_full_size_eq]
      omega

/-- Witness for C1: a TXQ of capacity 16 with `prod_ptr = 8`, `cons_ptr = 0`
(difference exactly `C/2`) reports full. -/
theorem ring_half_full_backpressure_witness :
    (Txq.mk 4 8 0).full = true :=
  (ring_half_full_backpressure ⟨4, 8, 0⟩ ⟨4, 2, 8, 0, [], 0⟩
    (by decide) (by decide)).2.2.2.2.1 (by decide) |>.1 (by decide)

/-! ## Reference-counted scheduler enable (`BaseScheduler`)

`enable()` invokes the hardware enable `_enable()` only when it finds
`enable_count == 0`, then increments; `disable()` decrements unconditionally
and invokes `_disable()` only when the decremented count is exactly 0.  The
count is a Python integer and may go negative.  The `Bool` component records
whether the hardware toggle was invoked.
-/

structure BaseScheduler where
  enable_count : Int

def BaseScheduler.enable (s : BaseScheduler) : BaseScheduler × Bool :=
  if s.enable_count = 0 then ({ enable_count := s.enable_count + 1 }, true)
  else ({ enable_count := s.enable_count + 1 }, false)

def BaseScheduler.disable (s : BaseScheduler) : BaseScheduler × Bool :=
  ({ enable_count := s.enable_count - 1 }, decide (s.enable_count - 1 = 0))

/-- Claim C10: `disable()` decrements the scheduler enable count
unconditionally; the hardware enable is toggled only when `enable()` finds the
count exactly 0 or `disable()` leaves it exactly 0; an unbalanced `disable()`
at count 0 drives the count to -1 without touching hardware, and the following
`enable()` merely returns the count to 0 without re-enabling the hardware. -/
theorem scheduler_refcount_unbalanced (s : BaseScheduler) :
    ((s.disable.1.enable_count = s.enable_count - 1) ∧
     (s.enable.2 = true ↔ s.enable_count = 0) ∧
     (s.disable.2 = true ↔ s.enable_count - 1 = 0)) ∧
    (s.enable_count = 0 →
      s.disable.1.enable_count = -1 ∧ s.disable.2 = false ∧
      s.disable.1.enable.1.enable_count = 0 ∧ s.disable.1.enable.2 = false) := by
  unfold BaseScheduler.enable BaseScheduler.disable
  constructor
  · refine ⟨rfl, ?_, by simp⟩
    by_cases h : s.enable_count = 0 <;> simp [h]
  · intro h0
    simp only [h0]
    norm_num

/-- Witness for C10 at count 0: the unbalanced `disable(); enable()` pair
leaves the count at 0 and never touches the hardware enable. -/
theorem scheduler_refcount_unbalanced_witness :
    (BaseScheduler.mk 0).disable.1.enable_count = -1 ∧
    (BaseScheduler.mk 0).disable.2 = false ∧
    (BaseScheduler.mk 0).disable.1.enable.1.enable_count = 0 ∧
    (BaseScheduler.mk 0).disable.1.enable.2 = false :=
  (scheduler_refcount_unbalanced ⟨0⟩).2 rfl

/-! ## Round-robin scheduler flow-control data budget (C3)

`set_ch_data_budget(port, tc, val)` scales the byte value by `fc_scale`
(rounding up: `val = (val + fc_scale-1) // fc_scale`) and writes the 16-bit
flow-control register of channel `port*tc_count + tc`;
`get_ch_data_budget(port, tc)` reads it back and multiplies by `fc_scale`.
The register bus is an external collaborator; it is modelled as storage
addressed by byte offset that returns the stored value.
-/

def sched_ch_data_budget_addr (tc_count port tc : Nat) : Nat :=
  MQNIC_RB_SCHED_RR_REG_CH0_FC2_DB + (port * tc_count + tc) * MQNIC_RB_SCHED_RR_REG_CH_STRIDE

def set_ch_data_budget (regs : Nat → Nat) (tc_count fc_scale port tc v : Nat) :
    Nat → Nat :=
  fun a =>
    if a = sched_ch_data_budget_addr tc_count port tc then (v + fc_scale - 1) / fc_scale
    else regs a

def get_ch_data_budget (regs : Nat → Nat) (tc_count fc_scale port tc : Nat) : Nat :=
  regs (sched_ch_data_budget_addr tc_count port tc) * fc_scale

lemma nat_ceil_cast_div (v s : Nat) (hs : 0 < s) :
    Nat.ceil ((v : ℚ) / (s : ℚ)) = (v + s - 1) / s := by
  rcases Nat.eq_zero_or_pos v with hv | hv
  · subst hv
    have h0 : (s - 1) / s = 0 := Nat.div_eq_of_lt (by omega)
    simp [h0]
  · have hdm : s * ((v + s - 1) / s) + (v + s - 1) % s = v + s - 1 :=
      Nat.div_add_mod _ s
    have hmod : (v + s - 1) % s < s := Nat.mod_lt _ hs
    set d := (v + s - 1) / s with hd
    set e := s * d with he
    have hub : v ≤ e := by omega
    have hub2 : v ≤ d * s := by rw [Nat.mul_comm d s, ← he]; exact hub
    have hds : (d - 1) * s = e - s := by
      rw [he, Nat.sub_mul, one_mul, Nat.mul_comm]
    have hlb : (d - 1) * s < v := by rw [hds]; omega
    have hd1 : 1 ≤ d := by
      have hs' : s ≤ v + s - 1 := by omega
      have h2 := Nat.div_le_div_right (c := s) hs'
      rwa [Nat.div_self hs] at h2
    have hspos : (0 : ℚ) < (s : ℚ) := by exact_mod_cast hs
    refine le_antisymm ?_ ?_
    · refine Nat.ceil_le.2 ?_
      rw [div_le_iff hspos]
      exact_mod_cast hub2
    · have hlt : ((d - 1 : Nat) : ℚ) < (v : ℚ) / (s : ℚ) := by
        rw [lt_div_iff hspos]
        exact_mod_cast hlb
      have := Nat.lt_ceil.2 hlt
      omega

/-- Claim C3: for every scheduler channel `(port, tc)`, every power-of-two
`fc_scale`, and every byte value `v`, `set_ch_data_budget` followed by
`get_ch_data_budget` returns `ceil(v / fc_scale) * fc_scale`: the write rounds
up to a whole hardware unit and the read multiplies back by `fc_scale`. -/
theorem sched_data_budget_roundtrip (regs : Nat → Nat)
    (tc_count port tc v j fc_scale : Nat) (hs : fc_scale = 2 ^ j) :
    get_ch_data_budget (set_ch_data_budget regs tc_count fc_scale port tc v)
        tc_count fc_scale port tc
      = Nat.ceil ((v : ℚ) / (fc_scale : ℚ)) * fc_scale := by
  have hpos : 0 < fc_scale := hs ▸ Nat.pos_pow_of_pos j (by norm_num)
  unfold get_ch_data_budget set_ch_data_budget
  rw [if_pos rfl, nat_ceil_cast_div v fc_scale hpos]

/-- Witness for C3: with `fc_scale = 64` and `v = 9000` the stored hardware
value is 141 and the readback is 9024. -/
theorem sched_data_budget_roundtrip_witness :
    set_ch_data_budget (fun _ => 0) 8 64 0 0 9000 (sched_ch_data_budget_addr 8 0 0) = 141 ∧
    get_ch_data_budget (set_ch_data_budget (fun _ => 0) 8 64 0 0 9000) 8 64 0 0 = 9024 := by
  constructor
  · decide
  · rw [sched_data_budget_roundtrip (fun _ => 0) 8 0 0 9000 6 64 rfl,
        nat_ceil_cast_div 9000 64 (by norm_num)]

/-! ## Hardware pointer readback (`read_cons_ptr`, C9)

The queue PTR register is a 32-bit dword at byte offset 0x10; the 16-bit
producer pointer register lives at 0x10 and the 16-bit consumer pointer
register at 0x12, so a little-endian dword read yields the producer in bits
0-15 and the consumer in bits 16-31.  `read_cons_ptr` extracts `val >> 16`
and advances the wider software counter by `((val >> 16) - cons_ptr) & 0xFFFF`
(Python semantics: masking a possibly negative integer yields its value
modulo 2^16). -/

def queue_ptr_reg_value (hw_prod hw_cons : Nat) : Nat :=
  (hw_prod % 2 ^ 16) + (hw_cons % 2 ^ 16) * 2 ^ 16

def read_cons_ptr_update (cons_ptr val : Nat) : Nat :=
  cons_ptr + ((((val >>> 16 : Nat) : Int) - (cons_ptr : Int)) % (65536 : Int)).toNat

/-- Modelled from the claim text (not the source): the claim places the
consumer pointer in bits 0-15 of the PTR register, so reconciling against the
hardware consumer would extract `val & 0xFFFF`. -/
def read_cons_ptr_claim_layout (cons_ptr val : Nat) : Nat :=
  cons_ptr + ((((val &&& 0xFFFF : Nat) : Int) - (cons_ptr : Int)) % (65536 : Int)).toNat

/-- Counterexample to C9 as stated: with hardware producer 3 and consumer 5,
the PTR dword is `0x00050003`; the code reconciles the software consumer to 5
(bits 16-31), while the layout stated in the claim (consumer in bits 0-15)
would reconcile it to 3. -/
theorem read_cons_ptr_layout_counterexample :
    read_cons_ptr_update 0 (queue_ptr_reg_value 3 5) = 5 ∧
    read_cons_ptr_claim_layout 0 (queue_ptr_reg_value 3 5) = 3 ∧
    read_cons_ptr_update 0 (queue_ptr_reg_value 3 5) ≠
      read_cons_ptr_claim_layout 0 (queue_ptr_reg_value 3 5) := by
  refine ⟨by decide, by decide, by decide⟩

/-- Claim C9 (amended): the queue PTR register packs the producer pointer in
bits 0-15 and the consumer pointer in bits 16-31; `read_cons_ptr` extracts the
16-bit hardware consumer value from bits 16-31 and adds the delta
`(hw_value - sw_low16) mod 2^16` to the software counter, which therefore
never decreases, advances by less than 2^16, and agrees with the hardware
value modulo 2^16. -/
theorem read_cons_ptr_reconciliation (hw_prod hw_cons sw : Nat) :
    queue_ptr_reg_value hw_prod hw_cons % 2 ^ 16 = hw_prod % 2 ^ 16 ∧
    queue_ptr_reg_value hw_prod hw_cons >>> 16 = hw_cons % 2 ^ 16 ∧
    sw ≤ read_cons_ptr_update sw (queue_ptr_reg_value hw_prod hw_cons) ∧
    read_cons_ptr_update sw (queue_ptr_reg_value hw_prod hw_cons) < sw + 2 ^ 16 ∧
    read_cons_ptr_update sw (queue_ptr_reg_value hw_prod hw_cons) % 2 ^ 16
      = hw_cons % 2 ^ 16 := by
  have hlow : queue_ptr_reg_value hw_prod hw_cons % 2 ^ 16 = hw_prod % 2 ^ 16 := by
    unfold queue_ptr_reg_value
    omega
  have hhigh : queue_ptr_reg_value hw_prod hw_cons >>> 16 = hw_cons % 2 ^ 16 := by
    unfold queue_ptr_reg_value
    rw [Nat.shiftRight_eq_div_pow]
    omega
  refine ⟨hlow, hhigh, ?_, ?_, ?_⟩
  · unfold read_cons_ptr_update
    omega
  · unfold read_cons_ptr_update
    rw [hhigh]
    have h1 : (0 : Int) ≤ (((hw_cons % 2 ^ 16 : Nat) : Int) - (sw : Int)) % 65536 :=
      Int.emod_nonneg _ (by norm_num)
    have h2 : (((hw_cons % 2 ^ 16 : Nat) : Int) - (sw : Int)) % 65536 < 65536 :=
      Int.emod_lt_of_pos _ (by norm_num)
    omega
  · unfold read_cons_ptr_update
    rw [hhigh]
    have h1 : (0 : Int) ≤ (((hw_cons % 2 ^ 16 : Nat) : Int) - (sw : Int)) % 65536 :=
      Int.emod_nonneg _ (by norm_num)
    omega

/-! ## Event queue close and its resource pool (C6)

`Eq.close()` returns immediately when `hw_regs` is unbound (never opened or
already closed).  Otherwise it writes the hardware disable command, clears
`irq`, `enabled` and `hw_regs`, frees the EQ slot back to the interface pool
(`Resource.free` appends the index and re-sorts the free list ascending) and
clears `eqn`.  It does not touch `cq_table`; the dispatch map is only reset by
the next `open()`.  The state is a faithful transcription of `Eq.__init__`'s
mutable fields; `hw_regs : Bool` records whether the register window is bound.
-/

structure EqRes where
  free_list : List Nat

def EqRes.free (r : EqRes) (index : Nat) : EqRes :=
  ⟨List.insertionSort (· ≤ ·) (r.free_list ++ [index])⟩

structure EqState where
  eqn : Option Nat
  irq : Option Nat
  enabled : Bool
  hw_regs : Bool
  cq_table : List Nat
  cons_ptr : Nat

def EqState.close (eq : EqState) (res : EqRes) : EqState × EqRes × List Nat :=
  if eq.hw_regs = false then (eq, res, [])
  else
    ({ eq with irq := none, enabled := false, hw_regs := false, eqn := none },
     res.free (eq.eqn.getD 0),
     [MQNIC_EQ_CMD_SET_ENABLE ||| 0])

/-- Counterexample to C6 as stated: closing an open EQ that still has CQ 5 in
its dispatch map leaves the dispatch map holding CQ 5 — `Eq.close` never
clears `cq_table` (only the next `open()` resets it). -/
theorem eq_close_dispatch_map_counterexample :
    ((EqState.mk (some 0) (some 3) true true [5] 0).close ⟨[]⟩).1.cq_table = [5] ∧
    ((EqState.mk (some 0) (some 3) true true [5] 0).close ⟨[]⟩).1.cq_table ≠ [] := by
  refine ⟨by decide, by decide⟩

/-- Claim C6 (amended): `Eq.close()` on an open event queue disables the
hardware queue, clears the IRQ binding, leaves the CQ dispatch map unchanged
(it is reset only by the next `open()`), and releases the EQ slot back to its
resource pool; `Eq.close()` on an already-closed event queue is a no-op that
changes no state and performs no hardware write. -/
theorem eq_close_behaviour (eq : EqState) (res : EqRes) (n : Nat) :
    (eq.hw_regs = false → eq.close res = (eq, res, [])) ∧
    (eq.hw_regs = true → eq.eqn = some n →
      (eq.close res).1 =
        { eq with irq := none, enabled := false, hw_regs := false, eqn := none } ∧
      (eq.close res).1.cq_table = eq.cq_table ∧
      (eq.close res).2.1 = res.free n ∧
      n ∈ (eq.close res).2.1.free_list ∧
      (eq.close res).2.2 = [MQNIC_EQ_CMD_SET_ENABLE ||| 0]) := by
  constructor
  · intro h
    unfold EqState.close
    simp [h]
  · intro h hn
    unfold EqState.close
    simp only [h]
    have hfree : (eq.eqn.getD 0) = n := by rw [hn]; rfl
    refine ⟨by simp, by simp, by simp [hfree], ?_, by simp⟩
    · simp only [hfree]
      unfold EqRes.free
      have hperm := List.perm_insertionSort (α := Nat) (· ≤ ·) (res.free_list ++ [n])
      have hmem : n ∈ res.free_list ++ [n] := by simp
      simpa using (hperm.mem_iff).2 hmem

/-- Witness for C6: closing an open EQ holding slot 2 with an empty pool frees
slot 2 into the pool and emits exactly the hardware disable write. -/
theorem eq_close_behaviour_witness :
    ((EqState.mk (some 2) (some 1) true true [] 7).close ⟨[0, 1]⟩).2.1
        = EqRes.free ⟨[0, 1]⟩ 2 ∧
    (2 : Nat) ∈ ((EqState.mk (some 2) (some 1) true true [] 7).close ⟨[0, 1]⟩).2.1.free_list :=
  ⟨((eq_close_behaviour ⟨some 2, some 1, true, true, [], 7⟩ ⟨[0, 1]⟩ 2).2
      rfl rfl).2.2.1,
   ((eq_close_behaviour ⟨some 2, some 1, true, true, [], 7⟩ ⟨[0, 1]⟩ 2).2
      rfl rfl).2.2.2.1⟩

/-! ## Network device lifecycle guards (C5)

`NetDev.open()` returns immediately when `port_up` is already true.
`NetDev.close()` returns immediately when `port_up` is already false;
otherwise it first sets `port_up = False` and then evaluates
`self.ports[0]` — but `NetDev.__init__` defines `self.port` (singular), not
`self.ports`, so the close path raises `AttributeError` before performing any
teardown step (its later statements also call `q.disable()` without awaiting
the coroutine and `await q.free_buf()` on a non-awaitable).  The model returns
the raised error message together with the state at the raise point; the open
body past the guard is an abstract parameter since only the guard behaviour is
at issue here. -/

structure NetDev where
  port_up : Bool

def NetDev.close_nd (nd : NetDev) : Option String × NetDev :=
  if nd.port_up = false then (none, nd)
  else (some "AttributeError: NetDev object has no attribute ports",
        { nd with port_up := false })

def NetDev.open_nd (body : NetDev → NetDev) (nd : NetDev) : NetDev :=
  if nd.port_up then nd else body nd

/-- Claim C5: `NetDev.close()` while the port is up does NOT complete the
teardown — it sets `port_up` to false and then raises `AttributeError`
(`self.ports[0]`: the attribute is `self.port`), contradicting the spec;
the idempotence half of the claim holds: `close()` while already down and
`open()` while already up are silent no-ops. -/
theorem netdev_close_raises (body : NetDev → NetDev) (nd : NetDev) :
    (nd.port_up = true →
      nd.close_nd = (some "AttributeError: NetDev object has no attribute ports",
                     { nd with port_up := false })) ∧
    (nd.port_up = false → nd.close_nd = (none, nd)) ∧
    (nd.port_up = true → NetDev.open_nd body nd = nd) := by
  refine ⟨?_, ?_, ?_⟩
  · intro h
    unfold NetDev.close_nd
    simp [h]
  · intro h
    unfold NetDev.close_nd
    simp [h]
  · intro h
    unfold NetDev.open_nd
    simp [h]

/-- Witness for C5: closing an up device raises; closing a down device and
re-opening an up device are no-ops. -/
theorem netdev_close_raises_witness :
    (NetDev.mk true).close_nd
        = (some "AttributeError: NetDev object has no attribute ports",
           NetDev.mk false) ∧
    (NetDev.mk false).close_nd = (none, NetDev.mk false) ∧
    NetDev.open_nd id (NetDev.mk true) = NetDev.mk true :=
  ⟨(netdev_close_raises id ⟨true⟩).1 rfl,
   (netdev_close_raises id ⟨false⟩).2.1 rfl,
   (netdev_close_raises id ⟨true⟩).2.2 rfl⟩

/-! ## Event queue processing (`Eq.process_eq`, C2)

`process_eq` walks the event ring from `cons_ptr`: each 32-byte slot decodes
to `(event_type, source_id, ..., phase_word)`; the walk stops at the first
slot whose stored phase bit (`phase_word & 0x80000000` as a boolean) equals
the expected-phase boolean `cons_ptr & size` — this signals "slot not yet
produced".  Each valid slot of type `MQNIC_EVENT_TYPE_CPL` is dispatched to
the CQ found in `cq_table[source_id]` (`handler` call followed by `arm`);
after the walk the advanced consumer pointer is written back to hardware.
The scan is modelled with explicit fuel; a dictionary miss is the Python
`KeyError`.
-/

structure EqEvent where
  event_type : Nat
  source_id : Nat
  phase_word : Nat

inductive EqAction where
  | dispatch (cqn : Nat)
  | arm (cqn : Nat)
deriving DecidableEq

def eq_slot_stop (k : Nat) (buf : Nat → EqEvent) (ptr : Nat) : Bool :=
  (((buf (ptr &&& (2 ^ k - 1))).phase_word &&& 0x80000000) != 0) == ((ptr &&& 2 ^ k) != 0)

def process_eq_scan (k : Nat) (buf : Nat → EqEvent) (cq_table : Nat → Option Nat) :
    Nat → Nat → Except String (Nat × List EqAction)
  | 0, _ => .error "out of fuel"
  | fuel+1, ptr =>
    if eq_slot_stop k buf ptr then .ok (ptr, [])
    else
      let ev := buf (ptr &&& (2 ^ k - 1))
      if ev.event_type = MQNIC_EVENT_TYPE_CPL then
        match cq_table ev.source_id with
        | none => .error "KeyError"
        | some cqn =>
          match process_eq_scan k buf cq_table fuel (ptr + 1) with
          | .error e => .error e
          | .ok (p, acts) => .ok (p, EqAction.dispatch cqn :: EqAction.arm cqn :: acts)
      else
        process_eq_scan k buf cq_table fuel (ptr + 1)

def write_cons_ptr_value (c : Nat) : Nat :=
  MQNIC_EQ_CMD_SET_CONS_PTR ||| (c &&& MQNIC_EQ_PTR_MASK)

def process_eq (k : Nat) (buf : Nat → EqEvent) (cq_table : Nat → Option Nat)
    (fuel cons_ptr : Nat) : Except String (Nat × List EqAction × Nat) :=
  match process_eq_scan k buf cq_table fuel cons_ptr with
  | .error e => .error e
  | .ok (p, acts) => .ok (p, acts, write_cons_ptr_value p)

/-- The claim's stop condition: the stored trailing word's bit 31, as a
boolean, equals the boolean value of `cons_ptr & capacity`. -/
def eq_slot_stale (k : Nat) (buf : Nat → EqEvent) (ptr : Nat) : Prop :=
  (buf (ptr % 2 ^ k)).phase_word.testBit 31 = ptr.testBit k

instance (k : Nat) (buf : Nat → EqEvent) (ptr : Nat) :
    Decidable (eq_slot_stale k buf ptr) := by
  unfold eq_slot_stale
  infer_instance

/-- The claim's dispatch trace: for each scanned slot of event type 0
(completion), dispatch to the CQ looked up by the event's `source_id`, then
re-arm that CQ. -/
def eq_expected_actions (k : Nat) (buf : Nat → EqEvent) (cq_table : Nat → Option Nat)
    (cons n : Nat) : List EqAction :=
  (List.range n).flatMap (fun j =>
    let ev := buf ((cons + j) % 2 ^ k)
    if ev.event_type = 0 then
      [EqAction.dispatch ((cq_table ev.source_id).getD 0),
       EqAction.arm ((cq_table ev.source_id).getD 0)]
    else [])

lemma and_two_pow_bne_zero (x i : Nat) : ((x &&& 2 ^ i) != 0) = x.testBit i := by
  rw [Nat.and_two_pow]
  cases h : x.testBit i
  · simp
  · simp [bne_iff_ne, (Nat.two_pow_pos i).ne']

lemma eq_slot_stop_iff (k : Nat) (buf : Nat → EqEvent) (ptr : Nat) :
    eq_slot_stop k buf ptr = true ↔ eq_slot_stale k buf ptr := by
  unfold eq_slot_stop eq_slot_stale
  have h31 : (0x80000000 : Nat) = 2 ^ 31 := by norm_num
  rw [h31, Nat.and_pow_two_sub_one_eq_mod, and_two_pow_bne_zero, and_two_pow_bne_zero,
    beq_iff_eq]

lemma eq_expected_actions_zero (k : Nat) (buf : Nat → EqEvent)
    (cq_table : Nat → Option Nat) (cons : Nat) :
    eq_expected_actions k buf cq_table cons 0 = [] := rfl

lemma eq_expected_actions_succ (k : Nat) (buf : Nat → EqEvent)
    (cq_table : Nat → Option Nat) (cons n : Nat) :
    eq_expected_actions k buf cq_table cons (n + 1)
      = (let ev := buf (cons % 2 ^ k)
         if ev.event_type = 0 then
           [EqAction.dispatch ((cq_table ev.source_id).getD 0),
            EqAction.arm ((cq_table ev.source_id).getD 0)]
         else []) ++ eq_expected_actions k buf cq_table (cons + 1) n := by
  unfold eq_expected_actions
  rw [List.range_succ_eq_map, List.flatMap_cons, List.flatMap_map]
  congr 1
  exact congrArg _ (funext fun j => by
    rw [show cons + Nat.succ j = cons + 1 + j from by omega])

lemma process_eq_scan_drains (k : Nat) (buf : Nat → EqEvent)
    (cq_table : Nat → Option Nat) (n : Nat) :
    ∀ cons fuel : Nat,
      eq_slot_stale k buf (cons + n) →
      (∀ j, j < n → ¬ eq_slot_stale k buf (cons + j)) →
      (∀ j, j < n → (buf ((cons + j) % 2 ^ k)).event_type = 0 →
        (cq_table (buf ((cons + j) % 2 ^ k)).source_id).isSome = true) →
      n < fuel →
      process_eq_scan k buf cq_table fuel cons
        = .ok (cons + n, eq_expected_actions k buf cq_table cons n) := by
  induction n with
  | zero =>
    intro cons fuel hstop hrun htab hfuel
    obtain ⟨f, rfl⟩ : ∃ f, fuel = f + 1 := ⟨fuel - 1, by omega⟩
    simp only [process_eq_scan]
    rw [if_pos ((eq_slot_stop_iff k buf cons).2 (by simpa using hstop))]
    simp [eq_expected_actions_zero]
  | succ n ih =>
    intro cons fuel hstop hrun htab hfuel
    obtain ⟨f, rfl⟩ : ∃ f, fuel = f + 1 := ⟨fuel - 1, by omega⟩
    have h0 : ¬ eq_slot_stale k buf cons := by simpa using hrun 0 (Nat.succ_pos n)
    have hs0 : eq_slot_stop k buf cons = false := by
      cases hb : eq_slot_stop k buf cons
      · rfl
      · exact absurd ((eq_slot_stop_iff k buf cons).1 hb) h0
    have hstale1 : eq_slot_stale k buf (cons + 1 + n) := by
      rw [show cons + 1 + n = cons + (n + 1) from by omega]
      exact hstop
    have hrun1 : ∀ j, j < n → ¬ eq_slot_stale k buf (cons + 1 + j) := by
      intro j hj
      rw [show cons + 1 + j = cons + (j + 1) from by omega]
      exact hrun (j + 1) (by omega)
    have htab1 : ∀ j, j < n → (buf ((cons + 1 + j) % 2 ^ k)).event_type = 0 →
        (cq_table (buf ((cons + 1 + j) % 2 ^ k)).source_id).isSome = true := by
      intro j hj
      rw [show cons + 1 + j = cons + (j + 1) from by omega]
      exact htab (j + 1) (by omega)
    have hih := ih (cons + 1) f hstale1 hrun1 htab1 (by omega)
    simp only [process_eq_scan, hs0, Bool.false_eq_true, if_false]
    by_cases hty : (buf (cons % 2 ^ k)).event_type = 0
    · obtain ⟨cqn, hcqn⟩ := Option.isSome_iff_exists.1
        (htab 0 (Nat.succ_pos n) (by simpa using hty))
      have hcqn2 : cq_table (buf (cons % 2 ^ k)).source_id = some cqn := by
        simpa using hcqn
      rw [eq_expected_actions_succ]
      simp [MQNIC_EVENT_TYPE_CPL, hty, hcqn2, hih,
        show cons + (n + 1) = cons + 1 + n from by omega]
    · rw [eq_expected_actions_succ]
      simp [MQNIC_EVENT_TYPE_CPL, hty, hih,
        show cons + (n + 1) = cons + 1 + n from by omega]

/-- Claim C2: on an open event queue, `process_eq` scans slots starting at
`cons_ptr & (capacity-1)` and stops at the first slot whose stored trailing
word's bit 31, as a boolean, equals the boolean value of `cons_ptr & capacity`
(the expected-phase comparison); for every earlier slot whose event type is 0
(completion) it dispatches to the attached CQ looked up by the event's
`source_id` and re-arms that CQ, and after the scan it writes the advanced
consumer pointer back to hardware. -/
theorem process_eq_drains (k : Nat) (buf : Nat → EqEvent)
    (cq_table : Nat → Option Nat) (cons n fuel : Nat)
    (hstop : eq_slot_stale k buf (cons + n))
    (hrun : ∀ j, j < n → ¬ eq_slot_stale k buf (cons + j))
    (htab : ∀ j, j < n → (buf ((cons + j) % 2 ^ k)).event_type = 0 →
      (cq_table (buf ((cons + j) % 2 ^ k)).source_id).isSome = true)
    (hfuel : n < fuel) :
    process_eq k buf cq_table fuel cons
      = .ok (cons + n, eq_expected_actions k buf cq_table cons n,
             write_cons_ptr_value (cons + n)) := by
  unfold process_eq
  rw [process_eq_scan_drains k buf cq_table n cons fuel hstop hrun htab hfuel]

def eq_buf_w : Nat → EqEvent :=
  fun i => if i = 0 then ⟨0, 7, 0x80000000⟩ else ⟨0, 0, 0⟩

def eq_tab_w : Nat → Option Nat :=
  fun sid => if sid = 7 then some 7 else none

/-- Witness for C2: a 4-slot EQ whose slot 0 holds a valid completion event
for CQ 7 and whose slot 1 is stale: the scan dispatches and re-arms CQ 7,
advances the consumer pointer to 1, and writes it back. -/
theorem process_eq_drains_witness :
    process_eq 2 eq_buf_w eq_tab_w 2 0
      = .ok (1, [EqAction.dispatch 7, EqAction.arm 7], write_cons_ptr_value 1) := by
  have h := process_eq_drains 2 eq_buf_w eq_tab_w 0 1 2
    (by decide)
    (by
      intro j hj
      have hj0 : j = 0 := Nat.lt_one_iff.mp hj
      subst hj0
      decide)
    (by
      intro j hj ht
      have hj0 : j = 0 := Nat.lt_one_iff.mp hj
      subst hj0
      decide)
    (by omega)
  rw [h]
  rfl

/-! ## RX completion processing (`Rxq.process_rx_cq`, C4)

The RX CQ drain loop decodes each 32-byte completion record
(`<HHHHLHHLBBHLL`: fields 1 = queue index, 2 = length, 3 = fractional
nanoseconds, 4 = nanoseconds, 5 = seconds, 6 = RX checksum, last = phase
word), stops at the first record whose phase bit matches the expected phase,
and for each valid record publishes a packet whose timestamp is
`Decimal(cpl_data[5]).scaleb(9) + Decimal(cpl_data[4]) + (Decimal(cpl_data[3])
/ Decimal(2**16))`, and frees the ring descriptor at `queue_index & ring_mask`.

Python's `Decimal` operates under the default context: precision 28
significant digits, rounding `ROUND_HALF_EVEN`.  Construction from an `int` is
exact, but `scaleb`, `+` and `/` are context operations that round their
result to 28 significant digits.  The rounded value depends only on the
numeric value of the ideal result: a value `v` with adjusted exponent `e`
(i.e. `10^e ≤ |v| < 10^(e+1)`) is rounded half-even to a multiple of
`10^(e-27)`.  We model the values in `ℚ`.  Every intermediate here is a
multiple of `10^-16` (the `/ 2^16` quotient has denominator `2^16 ∣ 10^16`),
so we represent the context rounding `dec_ctx_round` via the integer
`N = v * 10^16`: if `N` has at most 28 decimal digits the value is
representable exactly (the quantum `10^(e-27)` then divides `v`, see
`dec_ctx_round_dvd`); otherwise `N` is rounded half-even to a multiple of
`10^(digits(N) - 28)`.  For in-range fields (`sec : u16`, `ns : u32`,
`frac : u16`) the `scaleb`, the first addition and the division are exact, so
only the final addition can round (`rx_timestamp_eq_round`).
-/

def dec_len : Nat → Nat → Nat
  | 0, _ => 0
  | fuel+1, n => if n = 0 then 0 else dec_len fuel (n / 10) + 1

lemma dec_len_le_iff : ∀ fuel n m : Nat, n ≤ fuel → (dec_len fuel n ≤ m ↔ n < 10 ^ m) := by
  intro fuel
  induction fuel with
  | zero =>
    intro n m hn
    have hn0 : n = 0 := by omega
    subst hn0
    simp only [dec_len]
    exact ⟨fun _ => Nat.pos_pow_of_pos m (by norm_num), fun _ => Nat.zero_le m⟩
  | succ fuel ih =>
    intro n m hn
    by_cases h0 : n = 0
    · subst h0
      simp only [dec_len, if_pos rfl]
      exact ⟨fun _ => Nat.pos_pow_of_pos m (by norm_num), fun _ => Nat.zero_le m⟩
    · rw [show dec_len (fuel + 1) n = dec_len fuel (n / 10) + 1 from by
        simp [dec_len, h0]]
      have hdiv : n / 10 ≤ fuel := by
        have := Nat.div_lt_self (Nat.pos_of_ne_zero h0) (show 1 < 10 by norm_num)
        omega
      cases m with
      | zero =>
        constructor
        · intro h
          omega
        · intro h
          have h1 : n = 0 := by simpa using Nat.lt_one_iff.mp h
          exact absurd h1 h0
      | succ m =>
        rw [Nat.succ_le_succ_iff, ih (n / 10) m hdiv, pow_succ]
        omega

def dec_digit_len (n : Nat) : Nat := dec_len n n

lemma dec_digit_len_le_iff (n m : Nat) : dec_digit_len n ≤ m ↔ n < 10 ^ m :=
  dec_len_le_iff n n m (Nat.le_refl n)

def round_half_even (a b : Nat) : Nat :=
  if 2 * (a % b) < b then a / b
  else if b < 2 * (a % b) then a / b + 1
  else if a / b % 2 = 0 then a / b else a / b + 1

def dec_ctx_round (x : ℚ) : ℚ :=
  let N := (x * 10 ^ 16).num.toNat
  let d := dec_digit_len N
  if d ≤ 28 then x
  else ((round_half_even N (10 ^ (d - 28)) : ℕ) : ℚ) * 10 ^ (d - 28) / 10 ^ 16

lemma dec_ctx_round_small (M : ℕ) (hM : M < 10 ^ 28) :
    dec_ctx_round ((M : ℚ) / 10 ^ 16) = (M : ℚ) / 10 ^ 16 := by
  have hx : (M : ℚ) / 10 ^ 16 * 10 ^ 16 = ((M : ℕ) : ℚ) :=
    div_mul_cancel₀ _ (by norm_num)
  simp only [dec_ctx_round, hx, Rat.num_natCast, Int.toNat_natCast]
  rw [if_pos ((dec_digit_len_le_iff M 28).2 hM)]

lemma dec_ctx_round_dvd (M : ℕ) (hM : M < 10 ^ 44) (hdvd : 10 ^ 16 ∣ M) :
    dec_ctx_round ((M : ℚ) / 10 ^ 16) = (M : ℚ) / 10 ^ 16 := by
  have hx : (M : ℚ) / 10 ^ 16 * 10 ^ 16 = ((M : ℕ) : ℚ) :=
    div_mul_cancel₀ _ (by norm_num)
  simp only [dec_ctx_round, hx, Rat.num_natCast, Int.toNat_natCast]
  by_cases hd : dec_digit_len M ≤ 28
  · rw [if_pos hd]
  · rw [if_neg hd]
    have hd44 : dec_digit_len M ≤ 44 := (dec_digit_len_le_iff M 44).2 hM
    have hk : dec_digit_len M - 28 ≤ 16 := by omega
    have hdvd2 : 10 ^ (dec_digit_len M - 28) ∣ M :=
      dvd_trans (pow_dvd_pow 10 hk) hdvd
    have hmod : M % 10 ^ (dec_digit_len M - 28) = 0 :=
      Nat.dvd_iff_mod_eq_zero.mp hdvd2
    rw [round_half_even, hmod]
    rw [if_pos (by positivity)]
    rw [Nat.cast_div hdvd2
      (by positivity : ((10 ^ (dec_digit_len M - 28) : ℕ) : ℚ) ≠ 0)]
    push_cast
    rw [div_mul_cancel₀ _ (by positivity : ((10 : ℚ) ^ (dec_digit_len M - 28)) ≠ 0)]

lemma dec_ctx_round_int (A : ℕ) (hA : A < 10 ^ 28) :
    dec_ctx_round (A : ℚ) = (A : ℚ) := by
  have h1 : ((A * 10 ^ 16 : ℕ) : ℚ) / 10 ^ 16 = (A : ℚ) := by
    rw [Nat.cast_mul, Nat.cast_pow, mul_div_assoc]
    norm_num
  have h2 := dec_ctx_round_dvd (A * 10 ^ 16)
    (by
      have h3 := Nat.mul_lt_mul_of_pos_right hA (show 0 < 10 ^ 16 by norm_num)
      calc A * 10 ^ 16 < 10 ^ 28 * 10 ^ 16 := h3
      _ = 10 ^ 44 := by norm_num)
    (dvd_mul_left (10 ^ 16) A)
  rw [h1] at h2
  exact h2

lemma dec_ctx_round_frac (f : ℕ) (hf : f < 2 ^ 16) :
    dec_ctx_round ((f : ℚ) / 2 ^ 16) = (f : ℚ) / 2 ^ 16 := by
  have h1 : ((f * 5 ^ 16 : ℕ) : ℚ) / 10 ^ 16 = (f : ℚ) / 2 ^ 16 := by
    push_cast
    rw [div_eq_div_iff (by norm_num) (by norm_num)]
    ring_nf
  have h2 := dec_ctx_round_small (f * 5 ^ 16)
    (by
      have h3 := Nat.mul_lt_mul_of_pos_right hf (show 0 < 5 ^ 16 by norm_num)
      calc f * 5 ^ 16 < 2 ^ 16 * 5 ^ 16 := h3
      _ < 10 ^ 28 := by norm_num)
  rw [h1] at h2
  exact h2

structure RxCpl where
  queue_index : Nat
  len : Nat
  ts_frac : Nat
  ts_ns : Nat
  ts_sec : Nat
  rx_csum : Nat
  phase_word : Nat

structure RxPacket where
  queue : Nat
  data_len : Nat
  timestamp_ns : ℚ
  rx_checksum : Nat
deriving DecidableEq

def rx_timestamp (c : RxCpl) : ℚ :=
  dec_ctx_round
    (dec_ctx_round (dec_ctx_round ((c.ts_sec : ℚ) * 10 ^ 9) + (c.ts_ns : ℚ))
      + dec_ctx_round ((c.ts_frac : ℚ) / 2 ^ 16))

lemma rx_timestamp_eq_round (c : RxCpl) (hs : c.ts_sec < 2 ^ 16)
    (hn : c.ts_ns < 2 ^ 32) (hf : c.ts_frac < 2 ^ 16) :
    rx_timestamp c
      = dec_ctx_round
          ((c.ts_sec : ℚ) * 10 ^ 9 + (c.ts_ns : ℚ) + (c.ts_frac : ℚ) / 2 ^ 16) := by
  unfold rx_timestamp
  have e1 : (c.ts_sec : ℚ) * 10 ^ 9 = ((c.ts_sec * 10 ^ 9 : ℕ) : ℚ) := by push_cast; ring
  have b1 : c.ts_sec * 10 ^ 9 < 10 ^ 28 := by
    have h3 := Nat.mul_lt_mul_of_pos_right hs (show 0 < 10 ^ 9 by norm_num)
    calc c.ts_sec * 10 ^ 9 < 2 ^ 16 * 10 ^ 9 := h3
    _ < 10 ^ 28 := by norm_num
  rw [e1, dec_ctx_round_int _ b1]
  have e2 : ((c.ts_sec * 10 ^ 9 : ℕ) : ℚ) + (c.ts_ns : ℚ)
      = ((c.ts_sec * 10 ^ 9 + c.ts_ns : ℕ) : ℚ) := by push_cast; ring
  have b2 : c.ts_sec * 10 ^ 9 + c.ts_ns < 10 ^ 28 := by
    have h3 : (2 : ℕ) ^ 16 * 10 ^ 9 + 2 ^ 32 < 10 ^ 28 := by norm_num
    have h4 := Nat.mul_lt_mul_of_pos_right hs (show 0 < 10 ^ 9 by norm_num)
    omega
  rw [e2, dec_ctx_round_int _ b2]
  rw [dec_ctx_round_frac _ hf]

/-- Modelled from the claim text (not the source): the claim combines the
three timestamp sub-fields as `seconds + nanoseconds + fraction/2^16`,
without the nanosecond scaling of the seconds field. -/
def rx_timestamp_claim (c : RxCpl) : ℚ :=
  (c.ts_sec : ℚ) + (c.ts_ns : ℚ) + (c.ts_frac : ℚ) / 2 ^ 16

def rx_slot_stop (k : Nat) (cqbuf : Nat → RxCpl) (ptr : Nat) : Bool :=
  (((cqbuf (ptr &&& (2 ^ k - 1))).phase_word &&& 0x80000000) != 0) == ((ptr &&& 2 ^ k) != 0)

def rx_slot_stale (k : Nat) (cqbuf : Nat → RxCpl) (ptr : Nat) : Prop :=
  (cqbuf (ptr % 2 ^ k)).phase_word.testBit 31 = ptr.testBit k

instance (k : Nat) (cqbuf : Nat → RxCpl) (ptr : Nat) :
    Decidable (rx_slot_stale k cqbuf ptr) := by
  unfold rx_slot_stale
  infer_instance

def mk_rx_packet (ring_id : Nat) (c : RxCpl) : RxPacket :=
  { queue := ring_id, data_len := c.len, timestamp_ns := rx_timestamp c,
    rx_checksum := c.rx_csum }

def process_rx_cq_scan (k : Nat) (cqbuf : Nat → RxCpl) (ring_mask ring_id : Nat) :
    Nat → Nat → Nat × List RxPacket × List Nat
  | 0, ptr => (ptr, [], [])
  | fuel+1, ptr =>
    if rx_slot_stop k cqbuf ptr then (ptr, [], [])
    else
      let c := cqbuf (ptr &&& (2 ^ k - 1))
      let ring_index := c.queue_index &&& ring_mask
      let r := process_rx_cq_scan k cqbuf ring_mask ring_id fuel (ptr + 1)
      (r.1, mk_rx_packet ring_id c :: r.2.1, ring_index :: r.2.2)

lemma map_succ_range {α : Type} (F : Nat → α) (cons n : Nat) :
    List.map (fun j => F (cons + j)) (List.map Nat.succ (List.range n))
      = List.map (fun j => F (cons + 1 + j)) (List.range n) := by
  rw [List.map_map]
  refine List.map_congr_left (fun j _ => ?_)
  simp only [Function.comp_apply]
  exact congrArg F (by omega)

lemma rx_slot_stop_iff (k : Nat) (cqbuf : Nat → RxCpl) (ptr : Nat) :
    rx_slot_stop k cqbuf ptr = true ↔ rx_slot_stale k cqbuf ptr := by
  unfold rx_slot_stop rx_slot_stale
  have h31 : (0x80000000 : Nat) = 2 ^ 31 := by norm_num
  rw [h31, Nat.and_pow_two_sub_one_eq_mod, and_two_pow_bne_zero, and_two_pow_bne_zero,
    beq_iff_eq]

/-- Claim C4 (amended): every packet published by the RX CQ drain carries the
timestamp `seconds * 10^9 + nanoseconds + fraction/2^16` rounded to Python
`Decimal`'s default context of 28 significant digits (half-even) — for
in-range sub-fields (`sec : u16`, `ns : u32`, `frac : u16`) only this final
rounding can occur — together with the record's checksum and length, and the
drain stops at the first phase-stale record. -/
theorem process_rx_cq_timestamps (k : Nat) (cqbuf : Nat → RxCpl)
    (ring_mask ring_id : Nat) (n : Nat) :
    ∀ cons fuel : Nat,
      rx_slot_stale k cqbuf (cons + n) →
      (∀ j, j < n → ¬ rx_slot_stale k cqbuf (cons + j)) →
      (∀ j, j < n → (cqbuf ((cons + j) % 2 ^ k)).ts_sec < 2 ^ 16
        ∧ (cqbuf ((cons + j) % 2 ^ k)).ts_ns < 2 ^ 32
        ∧ (cqbuf ((cons + j) % 2 ^ k)).ts_frac < 2 ^ 16) →
      n < fuel →
      process_rx_cq_scan k cqbuf ring_mask ring_id fuel cons
        = (cons + n,
           (List.range n).map (fun j =>
             let c := cqbuf ((cons + j) % 2 ^ k)
             { queue := ring_id, data_len := c.len,
               timestamp_ns := dec_ctx_round
                 ((c.ts_sec : ℚ) * 10 ^ 9 + (c.ts_ns : ℚ) + (c.ts_frac : ℚ) / 2 ^ 16),
               rx_checksum := c.rx_csum }),
           (List.range n).map (fun j =>
             (cqbuf ((cons + j) % 2 ^ k)).queue_index &&& ring_mask)) := by
  induction n with
  | zero =>
    intro cons fuel hstop hrun hrange hfuel
    obtain ⟨f, rfl⟩ : ∃ f, fuel = f + 1 := ⟨fuel - 1, by omega⟩
    simp only [process_rx_cq_scan]
    rw [if_pos ((rx_slot_stop_iff k cqbuf cons).2 (by simpa using hstop))]
    simp
  | succ n ih =>
    intro cons fuel hstop hrun hrange hfuel
    obtain ⟨f, rfl⟩ : ∃ f, fuel = f + 1 := ⟨fuel - 1, by omega⟩
    have h0 : ¬ rx_slot_stale k cqbuf cons := by simpa using hrun 0 (Nat.succ_pos n)
    have hs0 : rx_slot_stop k cqbuf cons = false := by
      cases hb : rx_slot_stop k cqbuf cons
      · rfl
      · exact absurd ((rx_slot_stop_iff k cqbuf cons).1 hb) h0
    have hstale1 : rx_slot_stale k cqbuf (cons + 1 + n) := by
      rw [show cons + 1 + n = cons + (n + 1) from by omega]
      exact hstop
    have hrun1 : ∀ j, j < n → ¬ rx_slot_stale k cqbuf (cons + 1 + j) := by
      intro j hj
      rw [show cons + 1 + j = cons + (j + 1) from by omega]
      exact hrun (j + 1) (by omega)
    have hrange1 : ∀ j, j < n → (cqbuf ((cons + 1 + j) % 2 ^ k)).ts_sec < 2 ^ 16
        ∧ (cqbuf ((cons + 1 + j) % 2 ^ k)).ts_ns < 2 ^ 32
        ∧ (cqbuf ((cons + 1 + j) % 2 ^ k)).ts_frac < 2 ^ 16 := by
      intro j hj
      rw [show cons + 1 + j = cons + (j + 1) from by omega]
      exact hrange (j + 1) (by omega)
    have hih := ih (cons + 1) f hstale1 hrun1 hrange1 (by omega)
    simp only [process_rx_cq_scan, hs0, Bool.false_eq_true, if_false, hih]
    rw [List.range_succ_eq_map, List.map_cons, List.map_cons]
    refine congrArg₂ Prod.mk (by omega) (congrArg₂ Prod.mk ?_ ?_)
    · rw [Nat.and_pow_two_sub_one_eq_mod]
      obtain ⟨hs, hn2, hf2⟩ := hrange 0 (Nat.succ_pos n)
      simp only [Nat.add_zero] at hs hn2 hf2
      refine congrArg₂ List.cons
        (by simp [mk_rx_packet, rx_timestamp_eq_round _ hs hn2 hf2]) ?_
      exact (map_succ_range (fun m =>
        ({ queue := ring_id, data_len := (cqbuf (m % 2 ^ k)).len,
           timestamp_ns := dec_ctx_round
             (((cqbuf (m % 2 ^ k)).ts_sec : ℚ) * 10 ^ 9
               + ((cqbuf (m % 2 ^ k)).ts_ns : ℚ)
               + ((cqbuf (m % 2 ^ k)).ts_frac : ℚ) / 2 ^ 16),
           rx_checksum := (cqbuf (m % 2 ^ k)).rx_csum } : RxPacket)) cons n).symm
    · rw [Nat.and_pow_two_sub_one_eq_mod]
      refine congrArg₂ List.cons (by simp) ?_
      exact (map_succ_range (fun m => (cqbuf (m % 2 ^ k)).queue_index &&& ring_mask)
        cons n).symm

def rx_buf_w : Nat → RxCpl :=
  fun i => if i = 0 then ⟨0, 0, 0, 0, 1, 0, 0x80000000⟩ else ⟨0, 0, 0, 0, 0, 0, 0⟩

/-- Counterexample to C4 as stated: a completion record with seconds = 1,
nanoseconds = 0, fraction = 0 publishes a packet whose timestamp is `10^9`
(the code scales the seconds field by `10^9` via `scaleb(9)`), not
`seconds + nanoseconds + fraction/2^16 = 1` as the claim's formula states.
Further, the final `Decimal` addition rounds to 28 significant digits
half-even: seconds = 1000, nanoseconds = 0, fraction = 1 yields
`1000000000000.000015258789062` (a 29-digit exact sum `…0625` whose dropped
digit 5 ties and rounds to the even quotient), not the exact
`10^12 + 1/2^16`. -/
theorem rx_timestamp_counterexample :
    (process_rx_cq_scan 2 rx_buf_w 1023 0 2 0).2.1.map RxPacket.timestamp_ns
      = [(1000000000 : ℚ)] ∧
    rx_timestamp_claim (rx_buf_w 0) = 1 ∧
    (process_rx_cq_scan 2 rx_buf_w 1023 0 2 0).2.1.map RxPacket.timestamp_ns
      ≠ [rx_timestamp_claim (rx_buf_w 0)] ∧
    rx_timestamp ⟨0, 0, 1, 0, 1000, 0, 0⟩ = (10 ^ 28 + 152587890620) / 10 ^ 16 ∧
    rx_timestamp ⟨0, 0, 1, 0, 1000, 0, 0⟩
      ≠ (1000 : ℚ) * 10 ^ 9 + 0 + 1 / 2 ^ 16 := by
  have hts1 : rx_timestamp ⟨0, 0, 0, 0, 1, 0, 0x80000000⟩ = 1000000000 := by
    rw [rx_timestamp_eq_round _ (by norm_num) (by norm_num) (by norm_num)]
    have hd := dec_ctx_round_int 1000000000 (by norm_num)
    norm_num at hd ⊢
    rw [hd]
  have h1 : (process_rx_cq_scan 2 rx_buf_w 1023 0 2 0).2.1.map RxPacket.timestamp_ns
      = [(1000000000 : ℚ)] := by
    simp only [process_rx_cq_scan, rx_slot_stop, rx_buf_w, mk_rx_packet]
    norm_num [hts1]
  have h2 : rx_timestamp_claim (rx_buf_w 0) = 1 := by
    simp only [rx_timestamp_claim, rx_buf_w]
    norm_num
  have h4 : rx_timestamp ⟨0, 0, 1, 0, 1000, 0, 0⟩
      = (10 ^ 28 + 152587890620) / 10 ^ 16 := by
    rw [rx_timestamp_eq_round _ (by norm_num) (by norm_num) (by norm_num)]
    show dec_ctx_round (((1000 : ℕ) : ℚ) * 10 ^ 9 + ((0 : ℕ) : ℚ) + ((1 : ℕ) : ℚ) / 2 ^ 16)
      = (10 ^ 28 + 152587890620) / 10 ^ 16
    have hx : (((1000 : ℕ) : ℚ) * 10 ^ 9 + ((0 : ℕ) : ℚ) + ((1 : ℕ) : ℚ) / 2 ^ 16) * 10 ^ 16
        = ((10 ^ 28 + 152587890625 : ℕ) : ℚ) := by
      push_cast
      rw [add_mul, add_mul, div_mul_eq_mul_div, one_mul]
      norm_num
    simp only [dec_ctx_round]
    rw [hx, Rat.num_natCast, Int.toNat_natCast]
    have hd : dec_digit_len (10 ^ 28 + 152587890625) = 29 := by
      have hg1 := dec_digit_len_le_iff (10 ^ 28 + 152587890625) 28
      have hg2 := dec_digit_len_le_iff (10 ^ 28 + 152587890625) 29
      norm_num at hg1 hg2 ⊢
      omega
    rw [hd]
    rw [if_neg (by norm_num)]
    norm_num [round_half_even]
  refine ⟨h1, h2, ?_, h4, ?_⟩
  · rw [h1, h2]
    intro hcontra
    have := List.head_eq_of_cons_eq hcontra
    norm_num at this
  · rw [h4]
    norm_num

/-- Witness for C4: the same one-record RX CQ drained from pointer 0 stops at
pointer 1 having published exactly the packet with timestamp `10^9`. -/
theorem process_rx_cq_timestamps_witness :
    process_rx_cq_scan 2 rx_buf_w 1023 0 2 0
      = (1, [{ queue := 0, data_len := 0, timestamp_ns := 1000000000,
               rx_checksum := 0 }], [0]) := by
  have hd : dec_ctx_round (1000000000 : ℚ) = 1000000000 := by
    have h2 := dec_ctx_round_int 1000000000 (by norm_num)
    norm_num at h2
    exact h2
  have h := process_rx_cq_timestamps 2 rx_buf_w 1023 0 1 0 2
    (by decide)
    (by
      intro j hj
      have hj0 : j = 0 := Nat.lt_one_iff.mp hj
      subst hj0
      decide)
    (by
      intro j hj
      have hj0 : j = 0 := Nat.lt_one_iff.mp hj
      subst hj0
      decide)
    (by omega)
  rw [h]
  norm_num [List.range_succ, rx_buf_w, hd]

/-! ## Capability chain enumeration (`RegBlockList.enumerate_reg_blocks`, C7)

The walker reads `{type, version}` at the current offset, records the block,
then follows `next_ptr`; it returns normally when `next_ptr == 0`, asserts
that a nonzero `next_ptr` is 4-byte aligned (`offset & 0x3 == 0`,
"Register block not aligned"), and asserts that it does not equal the offset
of any previously recorded block ("Register blocks form a loop").  The flat
register space is modelled as a map from offsets to `{type, version,
next_ptr}` nodes; the loop carries explicit fuel.
-/

structure RegNode where
  rb_type : Nat
  rb_version : Nat
  next_ptr : Nat

structure RegBlock where
  offset : Nat
  rb_type : Nat
  rb_version : Nat
deriving DecidableEq

def enumerate_reg_blocks (mem : Nat → RegNode) :
    Nat → Nat → List RegBlock → Except String (List RegBlock)
  | 0, _, _ => .error "out of fuel"
  | fuel+1, offset, blocks =>
    let node := mem offset
    let blocks2 := blocks ++ [⟨offset, node.rb_type, node.rb_version⟩]
    if node.next_ptr = 0 then .ok blocks2
    else if node.next_ptr &&& 0x3 ≠ 0 then .error "Register block not aligned"
    else if blocks2.any (fun b => b.offset == node.next_ptr) then
      .error "Register blocks form a loop"
    else enumerate_reg_blocks mem fuel node.next_ptr blocks2

/-- The blocks recorded for the first `t` links of the chain `offs`, in link
order: offset, type and version of each visited node. -/
def chain_blocks (mem : Nat → RegNode) (offs : Nat → Nat) (t : Nat) : List RegBlock :=
  (List.range t).map (fun i => ⟨offs i, (mem (offs i)).rb_type, (mem (offs i)).rb_version⟩)

/-- The first `t` links of `offs` form a well-formed chain prefix in `mem`:
consecutive links, nonzero and 4-byte aligned after the head, no repeated
offsets. -/
def good_chain_prefix (mem : Nat → RegNode) (offs : Nat → Nat) (t : Nat) : Prop :=
  (∀ i, i < t → (mem (offs i)).next_ptr = offs (i + 1)) ∧
  (∀ i, 1 ≤ i → i ≤ t → offs i ≠ 0) ∧
  (∀ i, 1 ≤ i → i ≤ t → offs i &&& 0x3 = 0) ∧
  (∀ i j, i ≤ t → j ≤ t → offs i = offs j → i = j)

lemma chain_blocks_succ (mem : Nat → RegNode) (offs : Nat → Nat) (t : Nat) :
    chain_blocks mem offs (t + 1)
      = chain_blocks mem offs t
        ++ [⟨offs t, (mem (offs t)).rb_type, (mem (offs t)).rb_version⟩] := by
  unfold chain_blocks
  rw [List.range_succ, List.map_append, List.map_cons, List.map_nil]

lemma chain_blocks_any_eq_false (mem : Nat → RegNode) (offs : Nat → Nat) (t : Nat)
    (v : Nat) (hv : ∀ i, i < t → offs i ≠ v) :
    (chain_blocks mem offs t).any (fun b => b.offset == v) = false := by
  rw [List.any_eq_false]
  intro b hb
  unfold chain_blocks at hb
  rw [List.mem_map] at hb
  obtain ⟨i, hi, rfl⟩ := hb
  rw [List.mem_range] at hi
  simpa using hv i hi

lemma enumerate_reach (mem : Nat → RegNode) (offs : Nat → Nat) (t : Nat) :
    ∀ fuel, good_chain_prefix mem offs t → t < fuel →
      enumerate_reg_blocks mem fuel (offs 0) []
        = enumerate_reg_blocks mem (fuel - t) (offs t) (chain_blocks mem offs t) := by
  induction t with
  | zero =>
    intro fuel hg hfuel
    rfl
  | succ t ih =>
    intro fuel hg hfuel
    obtain ⟨hlink, hnz, hal, hinj⟩ := hg
    have hg' : good_chain_prefix mem offs t :=
      ⟨fun i hi => hlink i (by omega), fun i h1 h2 => hnz i h1 (by omega),
       fun i h1 h2 => hal i h1 (by omega),
       fun i j h1 h2 => hinj i j (by omega) (by omega)⟩
    rw [ih fuel hg' (by omega)]
    obtain ⟨f, hf⟩ : ∃ f, fuel - t = f + 1 := ⟨fuel - t - 1, by omega⟩
    rw [hf]
    simp only [enumerate_reg_blocks]
    rw [← chain_blocks_succ]
    rw [hlink t (by omega)]
    rw [if_neg (by simpa using hnz (t + 1) (by omega) (by omega))]
    rw [if_neg (by simpa using hal (t + 1) (by omega) (by omega))]
    rw [if_neg ?hany]
    case hany =>
      rw [Bool.not_eq_true]
      refine chain_blocks_any_eq_false mem offs (t + 1) (offs (t + 1)) ?_
      intro i hi heq
      have := hinj i (t + 1) (by omega) (by omega) heq
      omega
    have hff : fuel - (t + 1) = f := by omega
    rw [hff]

/-- Claim C7: for every capability chain without a cycle, the enumeration
terminates (with any fuel exceeding the chain length), visits each block
exactly once in link order recording its type/version/offset, and stops when
`next_ptr` equals 0; it fails with "Register block not aligned" when a
`next_ptr` is not 4-byte aligned, and with "Register blocks form a loop" when
a `next_ptr` equals the offset of a previously visited block. -/
theorem enumerate_reg_blocks_contract (mem : Nat → RegNode) (offs : Nat → Nat)
    (n fuel : Nat) (hg : good_chain_prefix mem offs n) (hfuel : n < fuel) :
    ((mem (offs n)).next_ptr = 0 →
      enumerate_reg_blocks mem fuel (offs 0) []
        = .ok (chain_blocks mem offs (n + 1))) ∧
    ((mem (offs n)).next_ptr ≠ 0 → (mem (offs n)).next_ptr &&& 0x3 ≠ 0 →
      enumerate_reg_blocks mem fuel (offs 0) []
        = .error "Register block not aligned") ∧
    (∀ j, j ≤ n → (mem (offs n)).next_ptr ≠ 0 → (mem (offs n)).next_ptr &&& 0x3 = 0 →
      (mem (offs n)).next_ptr = offs j →
      enumerate_reg_blocks mem fuel (offs 0) []
        = .error "Register blocks form a loop") := by
  have hre := enumerate_reach mem offs n fuel hg hfuel
  obtain ⟨f, hf⟩ : ∃ f, fuel - n = f + 1 := ⟨fuel - n - 1, by omega⟩
  refine ⟨?_, ?_, ?_⟩
  · intro h0
    rw [hre, hf]
    simp only [enumerate_reg_blocks]
    rw [← chain_blocks_succ, if_pos h0]
  · intro hne hmis
    rw [hre, hf]
    simp only [enumerate_reg_blocks]
    rw [← chain_blocks_succ, if_neg hne, if_pos hmis]
  · intro j hj hne hal2 heq
    rw [hre, hf]
    simp only [enumerate_reg_blocks]
    rw [← chain_blocks_succ, if_neg hne, if_neg (fun hx => hx hal2)]
    have hmem : (⟨offs j, (mem (offs j)).rb_type, (mem (offs j)).rb_version⟩ : RegBlock)
        ∈ chain_blocks mem offs (n + 1) := by
      unfold chain_blocks
      rw [List.mem_map]
      exact ⟨j, List.mem_range.2 (by omega), rfl⟩
    rw [if_pos (List.any_eq_true.2 ⟨_, hmem, by simp [heq]⟩)]

def reg_mem_w : Nat → RegNode :=
  fun o =>
    if o = 0 then ⟨1, 16, 16⟩
    else if o = 16 then ⟨2, 32, 32⟩
    else if o = 32 then ⟨3, 48, 0⟩
    else ⟨0, 0, 0⟩

/-- Witness for C7: a three-block chain at offsets 0, 16, 32 (the last block's
`next_ptr` is 0) enumerates to exactly its three blocks in link order. -/
theorem enumerate_reg_blocks_contract_witness :
    enumerate_reg_blocks reg_mem_w 5 0 []
      = .ok [⟨0, 1, 16⟩, ⟨16, 2, 32⟩, ⟨32, 3, 48⟩] := by
  have hg : good_chain_prefix reg_mem_w (fun i => 16 * i) 2 := by
    refine ⟨?_, ?_, ?_, ?_⟩
    · intro i hi
      interval_cases i <;> decide
    · intro i h1 h2
      interval_cases i <;> decide
    · intro i h1 h2
      interval_cases i <;> decide
    · intro i j h1 h2 heq
      have heq2 : 16 * i = 16 * j := heq
      omega
  have h := (enumerate_reg_blocks_contract reg_mem_w (fun i => 16 * i) 2 5 hg
    (by omega)).1 (by decide)
  rw [show chain_blocks reg_mem_w (fun i => 16 * i) (2 + 1)
      = [⟨0, 1, 16⟩, ⟨16, 2, 32⟩, ⟨32, 3, 48⟩] from by decide] at h
  exact h

/-! ## RXQ buffer refill (`Rxq.refill_buffers`, C8)

`refill_buffers` computes `missing = size - (prod_ptr - cons_ptr)`; if fewer
than 8 descriptors are missing it returns immediately, otherwise it runs
`prepare_desc(prod_ptr & size_mask)` and increments `prod_ptr` once per
missing slot, then publishes the producer pointer.  `prepare_desc` allocates
a fresh packet buffer (`driver.alloc_pkt()`, 16384 bytes — modelled by the
`next_pkt` counter), stores it in `rx_info[index]`, and writes one 16-byte
descriptor block per `desc_block_size`, chunked at 4096 bytes for all but the
last block.
-/

structure RxDescWrite where
  slot : Nat
  block : Nat
  seg : Nat
  pkt : Nat
deriving DecidableEq

def desc_segs : Nat → Nat → Nat → List Nat
  | 0, _, _ => []
  | n+1, length, offset =>
    let seg := if n = 0 then length - offset else min (length - offset) 4096
    seg :: desc_segs n length (offset + seg)

def slot_desc_writes (dbs index pkt : Nat) : List RxDescWrite :=
  (desc_segs dbs 16384 0).enum.map (fun p => ⟨index, p.1, p.2, pkt⟩)

def Rxq.prepare_desc (q : Rxq) (index : Nat) : Rxq × List RxDescWrite :=
  let pkt := q.next_pkt
  ({ q with rx_info := q.rx_info.set index (some pkt), next_pkt := q.next_pkt + 1 },
   slot_desc_writes q.desc_block_size index pkt)

def Rxq.refill_loop : Rxq → Nat → Rxq × List RxDescWrite
  | q, 0 => (q, [])
  | q, n+1 =>
    let r1 := q.prepare_desc (q.prod_ptr &&& q.size_mask)
    let q2 := { r1.1 with prod_ptr := r1.1.prod_ptr + 1 }
    let r2 := q2.refill_loop n
    (r2.1, r1.2 ++ r2.2)

def write_prod_ptr_value (p : Nat) : Nat :=
  MQNIC_QUEUE_CMD_SET_PROD_PTR ||| (p &&& MQNIC_QUEUE_PTR_MASK)

def Rxq.refill_buffers (q : Rxq) : Rxq × List RxDescWrite × Option Nat :=
  let missing := q.size - (q.prod_ptr - q.cons_ptr)
  if missing < 8 then (q, [], none)
  else
    let r := q.refill_loop missing
    (r.1, r.2, some (write_prod_ptr_value r.1.prod_ptr))

lemma Rxq.mask_eq_mod (q : Rxq) (x : Nat) : x &&& q.size_mask = x % q.size := by
  unfold Rxq.size_mask Rxq.size
  exact Nat.and_pow_two_sub_one_eq_mod x q.log_queue_size

lemma mod_shift_ne (a d m : Nat) (hd0 : 0 < d) (hdm : d < m) :
    a % m ≠ (a + d) % m := by
  intro h
  have hmod : a ≡ a + d [MOD m] := h
  have hdvd : m ∣ d := by
    have h2 := (Nat.modEq_iff_dvd' (Nat.le_add_right a d)).1 hmod
    simpa using h2
  exact absurd (Nat.le_of_dvd hd0 hdvd) (by omega)

lemma refill_loop_spec (n : Nat) :
    ∀ q : Rxq,
      ((q.refill_loop n).1.log_queue_size = q.log_queue_size ∧
       (q.refill_loop n).1.log_desc_block_size = q.log_desc_block_size ∧
       (q.refill_loop n).1.prod_ptr = q.prod_ptr + n ∧
       (q.refill_loop n).1.cons_ptr = q.cons_ptr ∧
       (q.refill_loop n).1.next_pkt = q.next_pkt + n ∧
       (q.refill_loop n).1.rx_info.length = q.rx_info.length) ∧
      ((q.refill_loop n).2
        = (List.range n).flatMap (fun i =>
            slot_desc_writes q.desc_block_size ((q.prod_ptr + i) % q.size)
              (q.next_pkt + i))) ∧
      (∀ s, (∀ i, i < n → s ≠ (q.prod_ptr + i) % q.size) →
        (q.refill_loop n).1.rx_info[s]? = q.rx_info[s]?) ∧
      (q.rx_info.length = q.size → n ≤ q.size →
        ∀ i, i < n →
          (q.refill_loop n).1.rx_info[(q.prod_ptr + i) % q.size]?
            = some (some (q.next_pkt + i))) := by
  induction n with
  | zero =>
    intro q
    refine ⟨⟨rfl, rfl, rfl, rfl, rfl, rfl⟩, by simp [Rxq.refill_loop], ?_, ?_⟩
    · intro s hs
      rfl
    · intro hlen hsz i hi
      omega
  | succ n ih =>
    intro q
    have hsize : 0 < q.size := Nat.pos_pow_of_pos q.log_queue_size (by norm_num)
    simp only [Rxq.refill_loop, Rxq.prepare_desc, Rxq.mask_eq_mod]
    set q2 : Rxq :=
      { q with rx_info := q.rx_info.set (q.prod_ptr % q.size) (some q.next_pkt),
               next_pkt := q.next_pkt + 1, prod_ptr := q.prod_ptr + 1 } with hq2
    obtain ⟨⟨e1, e2, e3, e4, e5, e6⟩, hw, huntouched, hset⟩ := ih q2
    have hq2size : q2.size = q.size := rfl
    have hq2dbs : q2.desc_block_size = q.desc_block_size := rfl
    have hp : q2.prod_ptr = q.prod_ptr + 1 := rfl
    have hnp : q2.next_pkt = q.next_pkt + 1 := rfl
    have hcp : q2.cons_ptr = q.cons_ptr := rfl
    refine ⟨⟨?_, ?_, ?_, ?_, ?_, ?_⟩, ?_, ?_, ?_⟩
    · exact e1
    · exact e2
    · rw [e3, hp]
      omega
    · rw [e4, hcp]
    · rw [e5, hnp]
      omega
    · rw [e6]
      simp
    · rw [hw]
      rw [List.range_succ_eq_map, List.flatMap_cons, List.flatMap_map]
      congr 1
      refine congrArg _ (funext fun j => ?_)
      show slot_desc_writes q.desc_block_size ((q.prod_ptr + 1 + j) % q.size)
          (q.next_pkt + 1 + j)
        = slot_desc_writes q.desc_block_size ((q.prod_ptr + (j + 1)) % q.size)
          (q.next_pkt + (j + 1))
      rw [show q.prod_ptr + 1 + j = q.prod_ptr + (j + 1) from by omega,
          show q.next_pkt + 1 + j = q.next_pkt + (j + 1) from by omega]
    · intro s hs
      rw [huntouched s ?_]
      · show (q.rx_info.set (q.prod_ptr % q.size) (some q.next_pkt))[s]? = q.rx_info[s]?
        refine List.getElem?_set_ne ?_
        exact fun heq => hs 0 (Nat.succ_pos n) (by rw [← heq]; simp)
      · intro i hi
        show s ≠ (q.prod_ptr + 1 + i) % q.size
        rw [show q.prod_ptr + 1 + i = q.prod_ptr + (i + 1) from by omega]
        exact hs (i + 1) (by omega)
    · intro hlen hsz i hi
      rcases Nat.eq_zero_or_pos i with hi0 | hipos
      · subst hi0
        simp only [Nat.add_zero]
        rw [huntouched (q.prod_ptr % q.size) ?_]
        · show (q.rx_info.set (q.prod_ptr % q.size) (some q.next_pkt))[q.prod_ptr % q.size]?
            = some (some q.next_pkt)
          exact List.getElem?_set_eq (by rw [hlen]; exact Nat.mod_lt _ hsize)
        · intro i2 hi2
          show q.prod_ptr % q.size ≠ (q.prod_ptr + 1 + i2) % q.size
          rw [show q.prod_ptr + 1 + i2 = q.prod_ptr + (1 + i2) from by omega]
          exact mod_shift_ne q.prod_ptr (1 + i2) q.size (by omega) (by omega)
      · obtain ⟨i2, rfl⟩ : ∃ i2, i = i2 + 1 := ⟨i - 1, by omega⟩
        have hlen2 : q2.rx_info.length = q2.size := by
          show (q.rx_info.set (q.prod_ptr % q.size) (some q.next_pkt)).length = q.size
          simpa using hlen
        have h4 := hset hlen2 (by rw [hq2size]; omega) i2 (by omega)
        rw [show q.prod_ptr + (i2 + 1) = q2.prod_ptr + i2 from by omega,
            show q.next_pkt + (i2 + 1) = q2.next_pkt + i2 from by omega]
        exact h4

/-- Claim C8: for every open RXQ of capacity C, `refill_buffers()` is a no-op
exactly when the number of missing descriptors `C - (prod_ptr - cons_ptr)` is
less than 8; otherwise it allocates a fresh packet buffer and writes
descriptors for every missing slot, advances `prod_ptr` until
`prod_ptr - cons_ptr = C`, and publishes the producer pointer; consequently
after any refill the missing-descriptor count is always below 8. -/
theorem rxq_refill_invariant (q : Rxq)
    (hlen : q.rx_info.length = q.size) (hc : q.cons_ptr ≤ q.prod_ptr)
    (hpc : q.prod_ptr - q.cons_ptr ≤ q.size) :
    (q.size - (q.prod_ptr - q.cons_ptr) < 8 →
      q.refill_buffers = (q, [], none)) ∧
    (8 ≤ q.size - (q.prod_ptr - q.cons_ptr) →
      (q.refill_buffers.1.prod_ptr
          = q.prod_ptr + (q.size - (q.prod_ptr - q.cons_ptr)) ∧
       q.refill_buffers.1.cons_ptr = q.cons_ptr ∧
       q.refill_buffers.1.prod_ptr - q.refill_buffers.1.cons_ptr = q.size ∧
       (∀ i, i < q.size - (q.prod_ptr - q.cons_ptr) →
         q.refill_buffers.1.rx_info[(q.prod_ptr + i) % q.size]?
           = some (some (q.next_pkt + i))) ∧
       q.refill_buffers.2.1
         = (List.range (q.size - (q.prod_ptr - q.cons_ptr))).flatMap (fun i =>
             slot_desc_writes q.desc_block_size ((q.prod_ptr + i) % q.size)
               (q.next_pkt + i)) ∧
       q.refill_buffers.2.2
         = some (write_prod_ptr_value
             (q.prod_ptr + (q.size - (q.prod_ptr - q.cons_ptr)))))) ∧
    q.refill_buffers.1.size
      - (q.refill_buffers.1.prod_ptr - q.refill_buffers.1.cons_ptr) < 8 := by
  by_cases hlt : q.size - (q.prod_ptr - q.cons_ptr) < 8
  · have hrb : q.refill_buffers = (q, [], none) := by
      simp only [Rxq.refill_buffers]
      rw [if_pos hlt]
    refine ⟨fun _ => hrb, fun hge => absurd hge (by omega), ?_⟩
    rw [hrb]
    exact hlt
  · obtain ⟨⟨e1, e2, e3, e4, e5, e6⟩, hw, hun, hset⟩ :=
      refill_loop_spec (q.size - (q.prod_ptr - q.cons_ptr)) q
    have hrb1 : q.refill_buffers.1
        = (q.refill_loop (q.size - (q.prod_ptr - q.cons_ptr))).1 := by
      simp only [Rxq.refill_buffers]
      rw [if_neg hlt]
    have hrb2 : q.refill_buffers.2.1
        = (q.refill_loop (q.size - (q.prod_ptr - q.cons_ptr))).2 := by
      simp only [Rxq.refill_buffers]
      rw [if_neg hlt]
    have hrb3 : q.refill_buffers.2.2
        = some (write_prod_ptr_value
            (q.refill_loop (q.size - (q.prod_ptr - q.cons_ptr))).1.prod_ptr) := by
      simp only [Rxq.refill_buffers]
      rw [if_neg hlt]
    have hs2 : (q.refill_loop (q.size - (q.prod_ptr - q.cons_ptr))).1.size = q.size := by
      show (2 : Nat) ^ (q.refill_loop (q.size - (q.prod_ptr - q.cons_ptr))).1.log_queue_size
        = q.size
      rw [e1]
      rfl
    refine ⟨fun h => absurd h hlt, fun _ => ?_, ?_⟩
    · refine ⟨?_, ?_, ?_, ?_, ?_, ?_⟩
      · rw [hrb1, e3]
      · rw [hrb1, e4]
      · rw [hrb1, e3, e4]
        omega
      · intro i hi
        rw [hrb1]
        exact hset hlen (by omega) i hi
      · rw [hrb2, hw]
      · rw [hrb3, e3]
    · rw [hrb1, hs2, e3, e4]
      omega

def rxq_w : Rxq := ⟨3, 0, 0, 0, List.replicate 8 none, 0⟩

/-- Witness for C8: an empty RXQ of capacity 8 (all 8 descriptors missing)
refills every slot with a fresh buffer, advances the producer pointer to 8 and
publishes it. -/
theorem rxq_refill_invariant_witness :
    rxq_w.refill_buffers.1.prod_ptr = 8 ∧
    rxq_w.refill_buffers.1.rx_info[0]? = some (some 0) ∧
    rxq_w.refill_buffers.2.2 = some (write_prod_ptr_value 8) := by
  have h := (rxq_refill_invariant rxq_w (by decide) (by decide) (by decide)).2.1
    (by decide)
  obtain ⟨h1, h2, h3, h4, h5, h6⟩ := h
  refine ⟨?_, ?_, ?_⟩
  · rw [h1]
    decide
  · have h40 := h4 0 (by decide)
    simpa [rxq_w] using h40
  · rw [h6]
    decide
